import Mathlib

/-!
Knowledge Graph Store, a shallow embedding.

A shallow embedding of the knowledge-graph store of `src/MemoryServer.ts`
(the `KnowledgeGraphManager` service).  The in-memory data model is embedded
directly (`Entity`, `Relation`, `KnowledgeGraph`).  The durable file is
modelled as a list of lines, each line either blank (whitespace-only, filtered
out by `loadGraph` via `line.trim() !== ""`) or the result of `JSON.parse`:
a parse failure (`ParsedLine.malformed`), or a parsed record whose `type`
field is `"entity"`, `"relation"`, or anything else (including absent,
`ParsedLine.otherRec`).  `JSON.stringify` of an entity/relation record always
yields exactly one non-blank line that parses back to the same record, so
`encode` produces `FileLine.content` lines directly.

Every operation of the manager follows the source's load → mutate → save
shape: it takes the current file contents, decodes them, computes the new
graph, and returns the new file contents (the result of `saveGraph`) together
with the operation's return value.  A thrown JS error is modelled as
`Except.error` (written as an explicit match on the intermediate results);
when an operation errors, no new file contents are produced, which is exactly
the source behaviour (the `saveGraph` call is never reached).
-/

namespace KnowledgeGraphStore

/-- Embedding of `interface Entity` of `MemoryServer.ts`. -/
structure Entity where
  name : String
  entityType : String
  observations : List String
deriving Repr, DecidableEq

/-- Embedding of `interface Relation` of `MemoryServer.ts`. -/
structure Relation where
  «from» : String
  «to» : String
  relationType : String
deriving Repr, DecidableEq

/-- Embedding of `interface KnowledgeGraph` of `MemoryServer.ts`. -/
structure KnowledgeGraph where
  entities : List Entity
  relations : List Relation
deriving Repr, DecidableEq

/-- The result of `JSON.parse` applied to one non-blank line of the backing
file: a record tagged `"entity"`, a record tagged `"relation"`, some other
valid JSON value (whose `type` field, if any, is neither of the two), or a
parse failure (`JSON.parse` throws). -/
inductive ParsedLine where
  | entityRec (e : Entity)
  | relationRec (r : Relation)
  | otherRec (kind : Option String)
  | malformed
deriving Repr, DecidableEq

/-- One line of the backing file: blank (`line.trim() === ""`) or content. -/
inductive FileLine where
  | blank
  | content (p : ParsedLine)
deriving Repr, DecidableEq

/-- Errors thrown by the manager's operations. -/
inductive Err where
  | entityNotFound (name : String)
  | decodeErr
deriving Repr, DecidableEq

/-- Embedding of `loadGraph` of `MemoryServer.ts` (the part after the file read): split
into lines, drop blank lines, and fold each parsed line into the graph.
`JSON.parse` throwing on a malformed line aborts the whole load (the error is
rethrown unless it is `ENOENT`); records whose `type` is `"entity"` or
`"relation"` are pushed onto the corresponding list in file order; any other
record falls through both `if`s and is ignored. -/
def decode : List FileLine → Except Err KnowledgeGraph
  | [] => .ok ⟨[], []⟩
  | .blank :: rest => decode rest
  | .content .malformed :: _ => .error .decodeErr
  | .content (.entityRec e) :: rest =>
      (decode rest).map fun g => ⟨e :: g.entities, g.relations⟩
  | .content (.relationRec r) :: rest =>
      (decode rest).map fun g => ⟨g.entities, r :: g.relations⟩
  | .content (.otherRec _) :: rest => decode rest

/-- Embedding of `loadGraph`'s handling of the backing file itself: a missing file
(`ENOENT` from the read) yields the empty graph, otherwise the contents are
decoded. -/
def loadGraphFromFS (file : Option (List FileLine)) : Except Err KnowledgeGraph :=
  match file with
  | none => .ok ⟨[], []⟩
  | some lines => decode lines

/-- Embedding of `saveGraph` of `MemoryServer.ts`: one line per entity (in order), then
one line per relation, each carrying its `type` discriminator. -/
def encode (graph : KnowledgeGraph) : List FileLine :=
  graph.entities.map (fun e => .content (.entityRec e))
    ++ graph.relations.map (fun r => .content (.relationRec r))

/-- The file contents written by the `KnowledgeGraphManager` constructor when
the backing file does not yet exist: the two-character string `"{}"`, one
non-blank line parsing to a record with no `type` field. -/
def initialFileContent : List FileLine :=
  [.content (.otherRec none)]

/-- Embedding of `createEntities` of `MemoryServer.ts`. -/
def createEntities (file : List FileLine) (entities : List Entity) :
    Except Err (List FileLine × List Entity) :=
  match decode file with
  | .error err => .error err
  | .ok graph =>
      let newEntities := entities.filter fun e =>
        ¬ graph.entities.any fun existingEntity => existingEntity.name == e.name
      .ok (encode { graph with entities := graph.entities ++ newEntities },
           newEntities)

/-- Embedding of `createRelations` of `MemoryServer.ts`. -/
def createRelations (file : List FileLine) (relations : List Relation) :
    Except Err (List FileLine × List Relation) :=
  match decode file with
  | .error err => .error err
  | .ok graph =>
      let newRelations := relations.filter fun r =>
        ¬ graph.relations.any fun existingRelation =>
          existingRelation.«from» == r.«from» && existingRelation.«to» == r.«to»
            && existingRelation.relationType == r.relationType
      .ok (encode { graph with relations := graph.relations ++ newRelations },
           newRelations)

/-- One element of the `observations` argument of `addObservations`. -/
structure ObservationEntry where
  entityName : String
  contents : List String
deriving Repr, DecidableEq

/-- One element of the result of `addObservations`. -/
structure ObservationResult where
  entityName : String
  addedObservations : List String
deriving Repr, DecidableEq

/-- In-place mutation of the entity object returned by
`graph.entities.find(...)`: the first entity with the given name is replaced;
later entities with the same name (possible only if the uniqueness invariant
is already broken) are untouched. -/
def replaceFirst (entities : List Entity) (name : String) (e' : Entity) :
    List Entity :=
  match entities with
  | [] => []
  | e :: es => if e.name == name then e' :: es else e :: replaceFirst es name e'

/-- The updated entity built by one iteration of the `observations.map` body
of `addObservations`: content strings already present are dropped, the rest
are appended in order. -/
def addContents (entity : Entity) (contents : List String) : Entity :=
  { entity with observations := entity.observations ++
      contents.filter fun content => ¬ entity.observations.contains content }

/-- The body of the callback of `observations.map((o) => ...)` in
`addObservations`: look up the entity (throwing when absent), drop content
strings already present on it, append the rest, and report what was added.
The graph is threaded explicitly because the source mutates the found entity
object in place. -/
def applyObservation (graph : KnowledgeGraph) (o : ObservationEntry) :
    Except Err (KnowledgeGraph × ObservationResult) :=
  match graph.entities.find? (fun e => e.name == o.entityName) with
  | none => .error (.entityNotFound o.entityName)
  | some entity =>
      .ok ({ graph with entities :=
               replaceFirst graph.entities o.entityName (addContents entity o.contents) },
           ⟨o.entityName,
            o.contents.filter fun content => ¬ entity.observations.contains content⟩)

/-- Embedding of `observations.map((o) => ...)` of `addObservations`: the entries are
processed left to right against the same (mutated) graph; the first missing
entity throws and aborts the whole call. -/
def applyObservations (graph : KnowledgeGraph) :
    List ObservationEntry → Except Err (KnowledgeGraph × List ObservationResult)
  | [] => .ok (graph, [])
  | o :: os =>
      match applyObservation graph o with
      | .error err => .error err
      | .ok (g', r) =>
          match applyObservations g' os with
          | .error err => .error err
          | .ok (g'', rs) => .ok (g'', r :: rs)

/-- Embedding of `addObservations` of `MemoryServer.ts`: load, apply all entries, save.
A throw inside the `map` happens before `saveGraph` runs, so on error no new
file contents exist. -/
def addObservations (file : List FileLine) (observations : List ObservationEntry) :
    Except Err (List FileLine × List ObservationResult) :=
  match decode file with
  | .error err => .error err
  | .ok graph =>
      match applyObservations graph observations with
      | .error err => .error err
      | .ok (graph', results) => .ok (encode graph', results)

/-- Embedding of `deleteEntities` of `MemoryServer.ts`. -/
def deleteEntities (file : List FileLine) (entityNames : List String) :
    Except Err (List FileLine) :=
  match decode file with
  | .error err => .error err
  | .ok graph =>
      .ok (encode
        ⟨graph.entities.filter fun e => ¬ entityNames.contains e.name,
         graph.relations.filter fun r =>
           ¬ entityNames.contains r.«from» && ¬ entityNames.contains r.«to»⟩)

/-- One element of the `deletions` argument of `deleteObservations`. -/
structure DeletionEntry where
  entityName : String
  observations : List String
deriving Repr, DecidableEq

/-- The body of `deletions.forEach((d) => ...)` in `deleteObservations`:
entities not found are skipped silently. -/
def applyDeletion (graph : KnowledgeGraph) (d : DeletionEntry) : KnowledgeGraph :=
  match graph.entities.find? (fun e => e.name == d.entityName) with
  | none => graph
  | some entity =>
      let kept := entity.observations.filter fun o => ¬ d.observations.contains o
      { graph with entities :=
          replaceFirst graph.entities d.entityName { entity with observations := kept } }

/-- Embedding of `deleteObservations` of `MemoryServer.ts`. -/
def deleteObservations (file : List FileLine) (deletions : List DeletionEntry) :
    Except Err (List FileLine) :=
  match decode file with
  | .error err => .error err
  | .ok graph => .ok (encode (deletions.foldl applyDeletion graph))

/-- Embedding of `deleteRelations` of `MemoryServer.ts`. -/
def deleteRelations (file : List FileLine) (relations : List Relation) :
    Except Err (List FileLine) :=
  match decode file with
  | .error err => .error err
  | .ok graph =>
      let keptRelations := graph.relations.filter fun r =>
        ¬ relations.any fun delRelation =>
          r.«from» == delRelation.«from» && r.«to» == delRelation.«to»
            && r.relationType == delRelation.relationType
      .ok (encode { graph with relations := keptRelations })

/-- Substring containment on character lists, the semantics of JavaScript's
`String.prototype.includes`: some suffix of `s` starts with `q`. -/
def charsInclude (q : List Char) : List Char → Bool
  | [] => q.isEmpty
  | c :: cs => q.isPrefixOf (c :: cs) || charsInclude q cs

/-- Embedding of `s.toLowerCase()` as a character list: every character lower-cased. -/
def lowerChars (s : String) : List Char :=
  s.toList.map Char.toLower

/-- Embedding of `s.toLowerCase().includes(q.toLowerCase())`, the case-insensitive
substring test used by `searchNodes`. -/
def includesCI (s q : String) : Bool :=
  charsInclude (lowerChars q) (lowerChars s)

/-- The entity predicate of `searchNodes`: the query matches the name, the
type, or some observation. -/
def entityMatches (e : Entity) (query : String) : Bool :=
  includesCI e.name query || includesCI e.entityType query
    || e.observations.any fun o => includesCI o query

/-- Embedding of `searchNodes` of `MemoryServer.ts`: entities matching the query on name,
type, or some observation, plus the relations both of whose endpoints are
names of matched entities. -/
def searchNodes (file : List FileLine) (query : String) :
    Except Err KnowledgeGraph :=
  match decode file with
  | .error err => .error err
  | .ok graph =>
      let filteredEntities := graph.entities.filter fun e => entityMatches e query
      let filteredEntityNames := filteredEntities.map fun e => e.name
      .ok ⟨filteredEntities,
           graph.relations.filter fun r =>
             filteredEntityNames.contains r.«from»
               && filteredEntityNames.contains r.«to»⟩

/-- Embedding of `openNodes` of `MemoryServer.ts`. -/
def openNodes (file : List FileLine) (names : List String) :
    Except Err KnowledgeGraph :=
  match decode file with
  | .error err => .error err
  | .ok graph =>
      let filteredEntities := graph.entities.filter fun e => names.contains e.name
      let filteredEntityNames := filteredEntities.map fun e => e.name
      .ok ⟨filteredEntities,
           graph.relations.filter fun r =>
             filteredEntityNames.contains r.«from»
               && filteredEntityNames.contains r.«to»⟩

/-! ## Invariants of §3 of the specification -/

/-- Entity names are unique within the graph. -/
def NamesNodup (g : KnowledgeGraph) : Prop :=
  (g.entities.map Entity.name).Nodup

/-- No entity's observation list contains a duplicate string. -/
def ObsNodup (g : KnowledgeGraph) : Prop :=
  ∀ e ∈ g.entities, e.observations.Nodup

/-! ## Shared lemmas -/

/-- The entity record carried by a file line, if any. -/
def entityOf : FileLine → Option Entity
  | .content (.entityRec e) => some e
  | _ => none

/-- The relation record carried by a file line, if any. -/
def relationOf : FileLine → Option Relation
  | .content (.relationRec r) => some r
  | _ => none

/-- Decoding a block of relation lines yields exactly those relations. -/
theorem decode_relation_lines (rels : List Relation) :
    decode (rels.map fun r => .content (.relationRec r)) = .ok ⟨[], rels⟩ := by
  induction rels with
  | nil => rfl
  | cons r rs ih => simp [decode, ih, Except.map]

/-- Prepending a block of entity lines prepends those entities. -/
theorem decode_entity_lines_append (ents : List Entity) (L : List FileLine)
    (g : KnowledgeGraph) (h : decode L = .ok g) :
    decode ((ents.map fun e => .content (.entityRec e)) ++ L) =
      .ok ⟨ents ++ g.entities, g.relations⟩ := by
  induction ents with
  | nil => simpa using h
  | cons e es ih => simp [decode, ih, Except.map]

/-- Round trip of the codec: decoding an encoded graph restores it exactly. -/
theorem decode_encode (g : KnowledgeGraph) : decode (encode g) = .ok g := by
  have h := decode_entity_lines_append g.entities
    (g.relations.map fun r => .content (.relationRec r)) ⟨[], g.relations⟩
    (decode_relation_lines g.relations)
  simpa [encode] using h

/-- Applying `replaceFirst` with a replacement of the matched name leaves the name
list unchanged. -/
theorem replaceFirst_map_name (es : List Entity) (n : String) (e' : Entity)
    (h : e'.name = n) :
    (replaceFirst es n e').map Entity.name = es.map Entity.name := by
  induction es with
  | nil => rfl
  | cons e es ih =>
      by_cases hc : e.name == n
      · simp_all [replaceFirst, hc]
      · simp_all [replaceFirst, hc]

/-- Every entity of `replaceFirst es n e'` is `e'` or one of `es`. -/
theorem mem_replaceFirst {a : Entity} {es : List Entity} {n : String}
    {e' : Entity} (h : a ∈ replaceFirst es n e') : a = e' ∨ a ∈ es := by
  induction es with
  | nil => simp [replaceFirst] at h
  | cons e es ih =>
      by_cases hc : e.name == n
      · simp [replaceFirst, hc] at h
        rcases h with h | h
        · exact .inl h
        · exact .inr (.tail _ h)
      · simp [replaceFirst, hc] at h
        rcases h with h | h
        · exact .inr (h ▸ List.mem_cons_self _ _)
        · rcases ih h with h' | h'
          · exact .inl h'
          · exact .inr (.tail _ h')

/-- The only error `applyObservation` can throw is `entityNotFound` for the
entry's own entity name. -/
theorem applyObservation_error (g : KnowledgeGraph) (o : ObservationEntry)
    (err : Err) (h : applyObservation g o = .error err) :
    err = .entityNotFound o.entityName := by
  cases hf : g.entities.find? (fun e => e.name == o.entityName) <;>
    simp_all [applyObservation]

/-- Lemma: `applyObservation` fails on an absent entity name. -/
theorem applyObservation_not_found (g : KnowledgeGraph) (o : ObservationEntry)
    (h : ∀ e ∈ g.entities, e.name ≠ o.entityName) :
    applyObservation g o = .error (.entityNotFound o.entityName) := by
  have hf : g.entities.find? (fun e => e.name == o.entityName) = none := by
    simp only [List.find?_eq_none]
    intro e he
    simpa using h e he
  simp [applyObservation, hf]

/-- Lemma: `applyObservation` never changes the list of entity names. -/
theorem applyObservation_names (g : KnowledgeGraph) (o : ObservationEntry)
    (g' : KnowledgeGraph) (r : ObservationResult)
    (h : applyObservation g o = .ok (g', r)) :
    g'.entities.map Entity.name = g.entities.map Entity.name := by
  cases hf : g.entities.find? (fun e => e.name == o.entityName) with
  | none => simp [applyObservation, hf] at h
  | some entity =>
      have hname : entity.name = o.entityName := by
        simpa using List.find?_some hf
      simp [applyObservation, hf] at h
      rw [← h.1]
      exact replaceFirst_map_name _ _ _ (by simp [addContents, hname])

/-- Lemma: `applyObservations` never changes the list of entity names. -/
theorem applyObservations_names (g : KnowledgeGraph)
    (os : List ObservationEntry) (g' : KnowledgeGraph)
    (rs : List ObservationResult)
    (h : applyObservations g os = .ok (g', rs)) :
    g'.entities.map Entity.name = g.entities.map Entity.name := by
  revert h
  induction os generalizing g g' rs with
  | nil =>
      intro h
      simp [applyObservations] at h
      rw [← h.1]
  | cons o os ih =>
      intro h
      cases h₁ : applyObservation g o with
      | error err => simp [applyObservations, h₁] at h
      | ok p =>
          obtain ⟨g₁, r⟩ := p
          cases h₂ : applyObservations g₁ os with
          | error err => simp [applyObservations, h₁, h₂] at h
          | ok q =>
              obtain ⟨g₂, rs'⟩ := q
              simp [applyObservations, h₁, h₂] at h
              rw [← h.1, ih g₁ g₂ rs' h₂]
              exact applyObservation_names g o g₁ r h₁

/-- If some entry of the batch names an entity absent from the graph, the
left-to-right processing of the batch throws `entityNotFound`. -/
theorem applyObservations_missing (g : KnowledgeGraph)
    (os : List ObservationEntry) (o : ObservationEntry) (ho : o ∈ os)
    (habsent : ∀ e ∈ g.entities, e.name ≠ o.entityName) :
    ∃ n, applyObservations g os = .error (.entityNotFound n) := by
  induction os generalizing g with
  | nil => cases ho
  | cons o₁ os ih =>
      cases h₁ : applyObservation g o₁ with
      | error err =>
          refine ⟨o₁.entityName, ?_⟩
          have herr := applyObservation_error g o₁ err h₁
          simp [applyObservations, h₁, herr]
      | ok p =>
          obtain ⟨g₁, r⟩ := p
          cases ho with
          | head =>
              have hco := applyObservation_not_found g o habsent
              rw [hco] at h₁
              cases h₁
          | tail _ hmem =>
              have hnames := applyObservation_names g o₁ g₁ r h₁
              have habsent₁ : ∀ e ∈ g₁.entities, e.name ≠ o.entityName := by
                intro e he heq
                have h2 : e.name ∈ g₁.entities.map Entity.name :=
                  List.mem_map.mpr ⟨e, he, rfl⟩
                rw [hnames] at h2
                obtain ⟨e₂, he₂, hname₂⟩ := List.mem_map.mp h2
                exact habsent e₂ he₂ (hname₂.trans heq)
              obtain ⟨n, hn⟩ := ih g₁ hmem habsent₁
              exact ⟨n, by simp [applyObservations, h₁, hn]⟩

/-! ## Claims -/

/-- C1: if any entry of an `addObservations` batch names an entity absent
from the loaded graph, the whole operation fails with `entityNotFound` and
nothing is persisted: the operation produces no new file contents, because in
the source the throw happens before `saveGraph` runs — even when earlier
entries of the batch name existing entities. -/
theorem C1_addObservations_atomic_failure (file : List FileLine)
    (g : KnowledgeGraph) (observations : List ObservationEntry)
    (o : ObservationEntry) (hload : decode file = .ok g)
    (ho : o ∈ observations)
    (habsent : ∀ e ∈ g.entities, e.name ≠ o.entityName) :
    ∃ n, addObservations file observations = .error (.entityNotFound n) := by
  obtain ⟨n, hn⟩ := applyObservations_missing g observations o ho habsent
  exact ⟨n, by simp [addObservations, hload, hn]⟩

/-- Witness for C1 at the spec's own example: `Alice` exists, `Ghost` does
not, and the batch's first entry would have succeeded. -/
theorem C1_addObservations_atomic_failure_witness :
    ∃ n, addObservations
        [.content (.entityRec ⟨"Alice", "person", []⟩)]
        [⟨"Alice", ["likes coffee"]⟩, ⟨"Ghost", ["boo"]⟩]
      = .error (.entityNotFound n) :=
  C1_addObservations_atomic_failure
    [.content (.entityRec ⟨"Alice", "person", []⟩)]
    ⟨[⟨"Alice", "person", []⟩], []⟩
    [⟨"Alice", ["likes coffee"]⟩, ⟨"Ghost", ["boo"]⟩]
    ⟨"Ghost", ["boo"]⟩ rfl (by decide) (by decide)

/-- C3: for any graph with unique entity names and unique relation triples,
decoding the encoding (`saveGraph` then `loadGraph`) yields the graph back
exactly — in particular equal as sets of entities and of relations. -/
theorem C3_roundtrip (g : KnowledgeGraph)
    (hnames : (g.entities.map Entity.name).Nodup)
    (htriples :
      (g.relations.map fun r => (r.«from», r.«to», r.relationType)).Nodup) :
    decode (encode g) = .ok g :=
  decode_encode g

/-- Witness for C3 at a concrete two-entity, one-relation graph. -/
theorem C3_roundtrip_witness :
    decode (encode ⟨[⟨"Alice", "person", ["likes coffee"]⟩,
                     ⟨"Bob", "person", []⟩],
                    [⟨"Alice", "Bob", "knows"⟩]⟩)
      = .ok ⟨[⟨"Alice", "person", ["likes coffee"]⟩, ⟨"Bob", "person", []⟩],
             [⟨"Alice", "Bob", "knows"⟩]⟩ :=
  C3_roundtrip
    ⟨[⟨"Alice", "person", ["likes coffee"]⟩, ⟨"Bob", "person", []⟩],
     [⟨"Alice", "Bob", "knows"⟩]⟩ (by decide) (by decide)

/-- C7 counterexample: a well-formed record whose `type` is neither
`"entity"` nor `"relation"` does not fail the decode — it is silently
skipped, and the decode of a file consisting of only such a record succeeds
with the empty graph. -/
theorem C7_counterexample :
    decode [.content (.otherRec (some "widget"))] = .ok ⟨[], []⟩ := rfl

/-- C7 amended: a malformed (unparseable) line anywhere in the file fails the
whole decode; but a well-formed record with an unknown kind is silently
skipped, not an error: when no line is malformed, the decode succeeds and
returns exactly the entity records and the relation records, in order. -/
theorem C7_decode_malformed_fails_unknown_skipped (file : List FileLine) :
    (FileLine.content ParsedLine.malformed ∈ file →
        decode file = .error .decodeErr)
      ∧ (FileLine.content ParsedLine.malformed ∉ file →
        decode file = .ok ⟨file.filterMap entityOf, file.filterMap relationOf⟩) := by
  induction file with
  | nil => exact ⟨by simp, fun _ => rfl⟩
  | cons l rest ih =>
      constructor
      · intro hmem
        cases l with
        | blank =>
            have hrest : FileLine.content ParsedLine.malformed ∈ rest := by
              simpa using hmem
            simpa [decode] using ih.1 hrest
        | content p =>
            cases p with
            | malformed => rfl
            | entityRec e =>
                have hrest : FileLine.content ParsedLine.malformed ∈ rest := by
                  simpa using hmem
                simp [decode, ih.1 hrest, Except.map]
            | relationRec r =>
                have hrest : FileLine.content ParsedLine.malformed ∈ rest := by
                  simpa using hmem
                simp [decode, ih.1 hrest, Except.map]
            | otherRec k =>
                have hrest : FileLine.content ParsedLine.malformed ∈ rest := by
                  simpa using hmem
                simpa [decode] using ih.1 hrest
      · intro hmem
        have hrest : FileLine.content ParsedLine.malformed ∉ rest := fun hc =>
          hmem (List.mem_cons_of_mem _ hc)
        cases l with
        | blank => simpa [decode, entityOf, relationOf] using ih.2 hrest
        | content p =>
            cases p with
            | malformed => exact absurd (List.mem_cons_self _ _) hmem
            | entityRec e =>
                simp [decode, ih.2 hrest, Except.map, entityOf, relationOf]
            | relationRec r =>
                simp [decode, ih.2 hrest, Except.map, entityOf, relationOf]
            | otherRec k =>
                simpa [decode, entityOf, relationOf] using ih.2 hrest

/-- Witness for C7's amended statement: the malformed case at a file with a
valid entity line before the malformed line, and the skip case at a file with
a blank line, an unknown record, an entity and a relation. -/
theorem C7_decode_spec_witness :
    decode [.content (.entityRec ⟨"A", "t", []⟩), .content .malformed]
        = .error .decodeErr
      ∧ decode [.blank, .content (.otherRec (some "widget")),
                .content (.entityRec ⟨"A", "t", []⟩),
                .content (.relationRec ⟨"A", "B", "r"⟩)]
        = .ok ⟨[⟨"A", "t", []⟩], [⟨"A", "B", "r"⟩]⟩ := by
  constructor
  · exact (C7_decode_malformed_fails_unknown_skipped _).1 (by decide)
  · exact (C7_decode_malformed_fails_unknown_skipped _).2 (by decide)

/-- C8 counterexample: the file created on first use of the store is not an
empty file — it is the single line `{}` (a record with no kind
discriminator) — although it does decode to the empty graph. -/
theorem C8_counterexample :
    initialFileContent ≠ ([] : List FileLine)
      ∧ initialFileContent ≠ [FileLine.blank]
      ∧ decode initialFileContent = .ok ⟨[], []⟩ :=
  ⟨by decide, by decide, rfl⟩

/-- C8 amended: a missing backing file decodes to the empty graph (not an
error), and the file created on first use — the single record `{}`, not a
byte-empty file — also decodes to the empty graph. -/
theorem C8_missing_file_empty_graph :
    loadGraphFromFS none = .ok ⟨[], []⟩
      ∧ loadGraphFromFS (some initialFileContent) = .ok ⟨[], []⟩ :=
  ⟨rfl, rfl⟩

/-- C2 counterexample: `createEntities` filters candidates only against the
already-loaded graph, so a batch containing two candidates with the same name
is appended whole, and the persisted graph violates entity-name uniqueness. -/
theorem C2_counterexample :
    createEntities [] [⟨"X", "t", []⟩, ⟨"X", "t", []⟩]
        = .ok ([.content (.entityRec ⟨"X", "t", []⟩),
                .content (.entityRec ⟨"X", "t", []⟩)],
               [⟨"X", "t", []⟩, ⟨"X", "t", []⟩])
      ∧ decode [.content (.entityRec ⟨"X", "t", []⟩),
                .content (.entityRec ⟨"X", "t", []⟩)]
          = .ok ⟨[⟨"X", "t", []⟩, ⟨"X", "t", []⟩], []⟩
      ∧ ¬ NamesNodup ⟨[⟨"X", "t", []⟩, ⟨"X", "t", []⟩], []⟩ := by
  refine ⟨rfl, rfl, ?_⟩
  simp [NamesNodup]

/-- Lemma: `List.contains` (the model of `Array.includes`) agrees with membership. -/
theorem contains_eq_true_iff {α : Type} [BEq α] [LawfulBEq α]
    (l : List α) (a : α) : l.contains a = true ↔ a ∈ l := by
  simp [List.contains, List.elem_iff]

/-- C4: `deleteEntities(names)` always succeeds (a name without a matching
entity is a no-op for that name, never an error) and persists, in one write,
exactly the entities whose name is not in the list together with exactly the
relations neither of whose endpoints is in the list (cascade). -/
theorem C4_deleteEntities_cascade (file : List FileLine) (g : KnowledgeGraph)
    (entityNames : List String) (hload : decode file = .ok g) :
    ∃ file', deleteEntities file entityNames = .ok file'
      ∧ ∃ g', decode file' = .ok g'
        ∧ (∀ e, e ∈ g'.entities ↔ e ∈ g.entities ∧ e.name ∉ entityNames)
        ∧ (∀ r, r ∈ g'.relations ↔ r ∈ g.relations
            ∧ r.«from» ∉ entityNames ∧ r.«to» ∉ entityNames) := by
  have hdel : deleteEntities file entityNames =
      .ok (encode ⟨g.entities.filter fun e => ¬ entityNames.contains e.name,
                   g.relations.filter fun r =>
                     ¬ entityNames.contains r.«from»
                       && ¬ entityNames.contains r.«to»⟩) := by
    simp [deleteEntities, hload]
  refine ⟨_, hdel, _, decode_encode _, ?_, ?_⟩
  · intro e
    simp [List.mem_filter, contains_eq_true_iff]
  · intro r
    simp [List.mem_filter, contains_eq_true_iff]

/-- Witness for C4: the spec's cascade example plus a name that matches no
entity (`Ghost`), which is a no-op. -/
theorem C4_deleteEntities_cascade_witness :
    ∃ file', deleteEntities
        (encode ⟨[⟨"Alice", "person", []⟩, ⟨"Bob", "person", []⟩],
                 [⟨"Alice", "Bob", "knows"⟩]⟩) ["Bob", "Ghost"] = .ok file'
      ∧ ∃ g', decode file' = .ok g'
        ∧ (∀ e, e ∈ g'.entities ↔
            e ∈ [⟨"Alice", "person", []⟩, ⟨"Bob", "person", []⟩]
              ∧ Entity.name e ∉ ["Bob", "Ghost"])
        ∧ (∀ r, r ∈ g'.relations ↔ r ∈ [⟨"Alice", "Bob", "knows"⟩]
            ∧ Relation.«from» r ∉ ["Bob", "Ghost"]
            ∧ Relation.«to» r ∉ ["Bob", "Ghost"]) :=
  C4_deleteEntities_cascade _
    ⟨[⟨"Alice", "person", []⟩, ⟨"Bob", "person", []⟩],
     [⟨"Alice", "Bob", "knows"⟩]⟩ ["Bob", "Ghost"] (decode_encode _)

/-- Substring containment by the empty list always holds. -/
theorem charsInclude_nil (l : List Char) : charsInclude [] l = true := by
  induction l with
  | nil => rfl
  | cons c cs ih => simp [charsInclude, ih, List.isPrefixOf]

/-- The case-insensitive substring test against the empty query is true. -/
theorem includesCI_empty (s : String) : includesCI s "" = true := by
  have h : lowerChars "" = [] := rfl
  simp [includesCI, h, charsInclude_nil]

/-- C5 counterexample: on a graph with entity `Alice` and the dangling
relation `Ghost → Alice` (no entity `Ghost`), the empty query returns every
entity but not every relation — the dangling relation is dropped by the
induced-subgraph filter. -/
theorem C5_counterexample :
    searchNodes
        (encode ⟨[⟨"Alice", "person", []⟩], [⟨"Ghost", "Alice", "haunts"⟩]⟩) ""
        = .ok ⟨[⟨"Alice", "person", []⟩], []⟩
      ∧ ([⟨"Ghost", "Alice", "haunts"⟩] : List Relation) ≠ [] := by
  constructor
  · rfl
  · simp

/-- C5 amended: `searchNodes` returns exactly the entities passing the
case-insensitive substring test of the query against name, type, or some
observation, plus exactly the relations whose `from` and `to` are both names
of returned entities; the empty query matches every entity, so it returns all
entities and exactly the relations whose endpoints both name entities of the
graph — every relation only when the graph has no dangling relation. -/
theorem C5_searchNodes_spec (file : List FileLine) (g : KnowledgeGraph)
    (query : String) (hload : decode file = .ok g) :
    ∃ res, searchNodes file query = .ok res
      ∧ (∀ e, e ∈ res.entities ↔
          e ∈ g.entities ∧ entityMatches e query = true)
      ∧ (∀ r, r ∈ res.relations ↔ r ∈ g.relations
          ∧ r.«from» ∈ res.entities.map Entity.name
          ∧ r.«to» ∈ res.entities.map Entity.name)
      ∧ (query = "" → res.entities = g.entities) := by
  have hsn : searchNodes file query =
      .ok ⟨g.entities.filter fun e => entityMatches e query,
           g.relations.filter fun r =>
             ((g.entities.filter fun e => entityMatches e query).map
               fun e => e.name).contains r.«from»
               && ((g.entities.filter fun e => entityMatches e query).map
                 fun e => e.name).contains r.«to»⟩ := by
    simp [searchNodes, hload]
  refine ⟨_, hsn, ?_, ?_, ?_⟩
  · intro e
    simp [List.mem_filter]
  · intro r
    simp only [List.mem_filter, Bool.and_eq_true, contains_eq_true_iff]
  · intro hq
    subst hq
    apply List.filter_eq_self.mpr
    intro e _
    simp [entityMatches, includesCI_empty]

/-- Witness for C5's amended statement at a graph with a matching and a
non-matching entity and one relation. -/
theorem C5_searchNodes_spec_witness :
    ∃ res, searchNodes
        (encode ⟨[⟨"Alice", "person", ["likes coffee"]⟩, ⟨"Widget", "thing", []⟩],
                 [⟨"Alice", "Widget", "owns"⟩]⟩) "ALI" = .ok res
      ∧ (∀ e, e ∈ res.entities ↔
          e ∈ [⟨"Alice", "person", ["likes coffee"]⟩, ⟨"Widget", "thing", []⟩]
            ∧ entityMatches e "ALI" = true)
      ∧ (∀ r, r ∈ res.relations ↔ r ∈ [⟨"Alice", "Widget", "owns"⟩]
          ∧ Relation.«from» r ∈ res.entities.map Entity.name
          ∧ Relation.«to» r ∈ res.entities.map Entity.name)
      ∧ ("ALI" = "" → res.entities =
          [⟨"Alice", "person", ["likes coffee"]⟩, ⟨"Widget", "thing", []⟩]) :=
  C5_searchNodes_spec _
    ⟨[⟨"Alice", "person", ["likes coffee"]⟩, ⟨"Widget", "thing", []⟩],
     [⟨"Alice", "Widget", "owns"⟩]⟩ "ALI" (decode_encode _)

/-- C10: within a single `addObservations` call the entries are applied
sequentially in list order against the same in-memory graph: a successful
batch call on `o :: os` persists and returns exactly what a call on `[o]`
followed by a call on `os` against the file the first call persisted would —
so a later entry naming the same entity is deduplicated against observations
already added by an earlier entry. -/
theorem C10_addObservations_sequential (file : List FileLine)
    (o : ObservationEntry) (os : List ObservationEntry)
    (file₂ : List FileLine) (rs : List ObservationResult)
    (h : addObservations file (o :: os) = .ok (file₂, rs)) :
    ∃ file₁ r rest, addObservations file [o] = .ok (file₁, [r])
      ∧ addObservations file₁ os = .ok (file₂, rest)
      ∧ rs = r :: rest := by
  cases hload : decode file with
  | error err => simp [addObservations, hload] at h
  | ok g =>
      cases h₁ : applyObservation g o with
      | error err => simp [addObservations, applyObservations, hload, h₁] at h
      | ok p =>
          obtain ⟨g₁, r⟩ := p
          cases h₂ : applyObservations g₁ os with
          | error err =>
              simp [addObservations, applyObservations, hload, h₁, h₂] at h
          | ok q =>
              obtain ⟨g₂, rest⟩ := q
              simp [addObservations, applyObservations, hload, h₁, h₂] at h
              refine ⟨encode g₁, r, rest, ?_, ?_, ?_⟩
              · simp [addObservations, applyObservations, hload, h₁]
              · rw [← h.1]
                simp [addObservations, decode_encode, h₂]
              · rw [← h.2]

/-- Witness for C10: two entries naming the same entity; the second entry's
repeated content `x` is deduplicated against the first entry's addition. -/
theorem C10_addObservations_sequential_witness :
    ∃ file₁ r rest,
      addObservations (encode ⟨[⟨"A", "t", []⟩], []⟩) [⟨"A", ["x"]⟩]
          = .ok (file₁, [r])
        ∧ addObservations file₁ [⟨"A", ["x", "y"]⟩]
            = .ok ([.content (.entityRec ⟨"A", "t", ["x", "y"]⟩)], rest)
        ∧ [(⟨"A", ["x"]⟩ : ObservationResult), ⟨"A", ["y"]⟩] = r :: rest :=
  C10_addObservations_sequential _ _ _ _ _ rfl

/-- The `newEntities` filter of `createEntities`: candidates whose name is
not carried by any entity of the loaded graph. -/
def newEnts (g : KnowledgeGraph) (cands : List Entity) : List Entity :=
  cands.filter fun e =>
    ¬ g.entities.any fun existingEntity => existingEntity.name == e.name

/-- Membership in the added-entity list. -/
theorem mem_newEnts {g : KnowledgeGraph} {cands : List Entity} {e : Entity} :
    e ∈ newEnts g cands ↔
      e ∈ cands ∧ e.name ∉ g.entities.map Entity.name := by
  simp only [newEnts, List.mem_filter, decide_eq_true_eq, List.any_eq_true,
    beq_iff_eq, List.mem_map]

/-- Computed form of `createEntities` on a loadable file. -/
theorem createEntities_eq (file : List FileLine) (g : KnowledgeGraph)
    (cands : List Entity) (hload : decode file = .ok g) :
    createEntities file cands =
      .ok (encode ⟨g.entities ++ newEnts g cands, g.relations⟩,
           newEnts g cands) := by
  simp [createEntities, hload, newEnts]

/-- The number of entities carrying a given name. -/
def countName (es : List Entity) (n : String) : Nat :=
  (es.filter fun x => x.name == n).length

/-- C6: `createEntities` silently drops every candidate whose name already
exists in the loaded graph, appends the remaining candidates, persists the
full graph, and returns exactly the entities actually added; consequently —
when the loaded graph carries at most one entity of the candidate's name, as
the §3 uniqueness invariant guarantees — calling it twice in sequence with
one candidate leaves exactly one entity of that name in the persisted
graph. -/
theorem C6_createEntities_spec (file : List FileLine) (g : KnowledgeGraph)
    (candidates : List Entity) (hload : decode file = .ok g) :
    (createEntities file candidates =
        .ok (encode ⟨g.entities ++ newEnts g candidates, g.relations⟩,
             newEnts g candidates)
      ∧ (∀ e, e ∈ newEnts g candidates ↔
          e ∈ candidates ∧ e.name ∉ g.entities.map Entity.name)
      ∧ decode (encode ⟨g.entities ++ newEnts g candidates, g.relations⟩)
          = .ok ⟨g.entities ++ newEnts g candidates, g.relations⟩)
    ∧ (∀ e : Entity, countName g.entities e.name ≤ 1 →
        ∀ file₁ added₁, createEntities file [e] = .ok (file₁, added₁) →
        ∀ file₂ added₂, createEntities file₁ [e] = .ok (file₂, added₂) →
        ∀ g₂, decode file₂ = .ok g₂ → countName g₂.entities e.name = 1) := by
  refine ⟨⟨createEntities_eq file g candidates hload, fun e => mem_newEnts,
    decode_encode _⟩, ?_⟩
  intro e hcount file₁ added₁ h₁ file₂ added₂ h₂ g₂ hg₂
  rw [createEntities_eq file g [e] hload] at h₁
  simp only [Except.ok.injEq, Prod.mk.injEq] at h₁
  obtain ⟨hfile₁, _⟩ := h₁
  subst hfile₁
  rw [createEntities_eq _ _ [e] (decode_encode _)] at h₂
  simp only [Except.ok.injEq, Prod.mk.injEq] at h₂
  obtain ⟨hfile₂, _⟩ := h₂
  subst hfile₂
  rw [decode_encode] at hg₂
  injection hg₂ with hg₂
  subst hg₂
  by_cases hmem : e.name ∈ g.entities.map Entity.name
  · have h0 : newEnts g [e] = [] := by
      rw [List.eq_nil_iff_forall_not_mem]
      intro x hx
      obtain ⟨hx1, hx2⟩ := mem_newEnts.mp hx
      rw [List.mem_singleton] at hx1
      subst hx1
      exact hx2 hmem
    have h0' : newEnts (⟨g.entities ++ newEnts g [e], g.relations⟩ :
        KnowledgeGraph) [e] = [] := by
      rw [List.eq_nil_iff_forall_not_mem]
      intro x hx
      obtain ⟨hx1, hx2⟩ := mem_newEnts.mp hx
      rw [List.mem_singleton] at hx1
      subst hx1
      exact hx2 (by simp [h0, hmem])
    have hone : countName g.entities e.name = 1 := by
      obtain ⟨x, hx, hxname⟩ := List.mem_map.mp hmem
      have hxf : x ∈ g.entities.filter fun y => y.name == e.name :=
        List.mem_filter.mpr ⟨hx, by simp [hxname]⟩
      have hpos : 0 < countName g.entities e.name :=
        List.length_pos.mpr (List.ne_nil_of_mem hxf)
      omega
    rw [h0', List.append_nil, h0, List.append_nil]
    exact hone
  · have hnall : ∀ x ∈ g.entities, ¬ x.name = e.name := by
      intro x hx hxe
      exact hmem (List.mem_map.mpr ⟨x, hx, hxe⟩)
    have h1 : newEnts g [e] = [e] := by
      simp [newEnts, List.filter_cons]
      exact hnall
    have hzero : g.entities.filter (fun x => x.name == e.name) = [] := by
      rw [List.filter_eq_nil_iff]
      intro x hx hxe
      exact hnall x hx (by simpa using hxe)
    have hmem₁ : e.name ∈ (g.entities ++ newEnts g [e]).map Entity.name := by
      rw [h1]
      simp
    have h0' : newEnts (⟨g.entities ++ newEnts g [e], g.relations⟩ :
        KnowledgeGraph) [e] = [] := by
      rw [List.eq_nil_iff_forall_not_mem]
      intro x hx
      obtain ⟨hx1, hx2⟩ := mem_newEnts.mp hx
      rw [List.mem_singleton] at hx1
      subst hx1
      exact hx2 hmem₁
    rw [h0', List.append_nil, h1]
    simp [countName, List.filter_append, hzero]

/-- Lemma: `applyDeletion` never changes the list of entity names. -/
theorem applyDeletion_names (g : KnowledgeGraph) (d : DeletionEntry) :
    (applyDeletion g d).entities.map Entity.name =
      g.entities.map Entity.name := by
  cases hf : g.entities.find? (fun e => e.name == d.entityName) with
  | none => simp [applyDeletion, hf]
  | some entity =>
      have hname : entity.name = d.entityName := by
        simpa using List.find?_some hf
      simp only [applyDeletion, hf]
      exact replaceFirst_map_name _ _ _ (by simp [hname])

/-- Folding `applyDeletion` never changes the list of entity names. -/
theorem foldl_applyDeletion_names (ds : List DeletionEntry)
    (g : KnowledgeGraph) :
    ((ds.foldl applyDeletion g).entities.map Entity.name) =
      g.entities.map Entity.name := by
  induction ds generalizing g with
  | nil => rfl
  | cons d ds ih => rw [List.foldl_cons, ih, applyDeletion_names]

/-- C2 amended: after any mutation operation the persisted graph has unique
entity names, provided the starting graph does and — for `createEntities` —
the candidate batch itself contains no two candidates sharing a name; the
source filters candidates only against the loaded graph, not against each
other, so a batch-internal duplicate is appended twice. -/
theorem C2_unique_names_preserved (file : List FileLine) (g : KnowledgeGraph)
    (hload : decode file = .ok g) (hg : NamesNodup g) :
    (∀ cands file' added, (cands.map Entity.name).Nodup →
        createEntities file cands = .ok (file', added) →
        ∀ g', decode file' = .ok g' → NamesNodup g')
    ∧ (∀ rels file' added, createRelations file rels = .ok (file', added) →
        ∀ g', decode file' = .ok g' → NamesNodup g')
    ∧ (∀ obs file' res, addObservations file obs = .ok (file', res) →
        ∀ g', decode file' = .ok g' → NamesNodup g')
    ∧ (∀ names file', deleteEntities file names = .ok file' →
        ∀ g', decode file' = .ok g' → NamesNodup g')
    ∧ (∀ dels file', deleteObservations file dels = .ok file' →
        ∀ g', decode file' = .ok g' → NamesNodup g')
    ∧ (∀ rels file', deleteRelations file rels = .ok file' →
        ∀ g', decode file' = .ok g' → NamesNodup g') := by
  refine ⟨?_, ?_, ?_, ?_, ?_, ?_⟩
  · intro cands file' added hcands h g' hg'
    rw [createEntities_eq file g cands hload] at h
    simp only [Except.ok.injEq, Prod.mk.injEq] at h
    rw [← h.1, decode_encode] at hg'
    injection hg' with hg'
    subst hg'
    simp only [NamesNodup, List.map_append]
    rw [List.nodup_append]
    refine ⟨hg, ?_, ?_⟩
    · have hsl : (newEnts g cands).Sublist cands := List.filter_sublist _
      exact (hsl.map Entity.name).nodup hcands
    · intro a ha hb
      obtain ⟨x, hx, hxa⟩ := List.mem_map.mp hb
      obtain ⟨-, hnot⟩ := mem_newEnts.mp hx
      exact hnot (hxa ▸ ha)
  · intro rels file' added h g' hg'
    simp [createRelations, hload] at h
    rw [← h.1, decode_encode] at hg'
    injection hg' with hg'
    subst hg'
    exact hg
  · intro obs file' res h g' hg'
    cases hap : applyObservations g obs with
    | error err => simp [addObservations, hload, hap] at h
    | ok p =>
        obtain ⟨g₁, rs⟩ := p
        simp [addObservations, hload, hap] at h
        rw [← h.1, decode_encode] at hg'
        injection hg' with hg'
        subst hg'
        have hn := applyObservations_names g obs g₁ rs hap
        simp only [NamesNodup] at hg ⊢
        rw [hn]
        exact hg
  · intro names file' h g' hg'
    simp [deleteEntities, hload] at h
    rw [← h, decode_encode] at hg'
    injection hg' with hg'
    subst hg'
    simp only [NamesNodup]
    exact ((List.filter_sublist _).map Entity.name).nodup hg
  · intro dels file' h g' hg'
    simp [deleteObservations, hload] at h
    rw [← h, decode_encode] at hg'
    injection hg' with hg'
    subst hg'
    simp only [NamesNodup]
    rw [foldl_applyDeletion_names]
    exact hg
  · intro rels file' h g' hg'
    simp [deleteRelations, hload] at h
    rw [← h, decode_encode] at hg'
    injection hg' with hg'
    subst hg'
    exact hg

/-- Witness for C2's amended statement: adding `B` to a one-entity graph
`A` through `createEntities` yields a persisted graph with unique names. -/
theorem C2_unique_names_preserved_witness :
    NamesNodup ⟨[⟨"A", "t", []⟩, ⟨"B", "t", []⟩], []⟩ :=
  (C2_unique_names_preserved (encode ⟨[⟨"A", "t", []⟩], []⟩)
      ⟨[⟨"A", "t", []⟩], []⟩ (decode_encode _) (by simp [NamesNodup])).1
    [⟨"B", "t", []⟩]
    [.content (.entityRec ⟨"A", "t", []⟩), .content (.entityRec ⟨"B", "t", []⟩)]
    [⟨"B", "t", []⟩] (by simp) rfl
    ⟨[⟨"A", "t", []⟩, ⟨"B", "t", []⟩], []⟩ rfl

/-- Witness for C6 at the empty store and a single candidate. -/
theorem C6_createEntities_spec_witness :
    ((createEntities [] [⟨"A", "t", []⟩] =
        .ok ([.content (.entityRec ⟨"A", "t", []⟩)], [⟨"A", "t", []⟩]))
      ∧ (∀ e, e ∈ ([⟨"A", "t", []⟩] : List Entity) ↔
          e ∈ ([⟨"A", "t", []⟩] : List Entity)
            ∧ Entity.name e ∉ ([] : List String))
      ∧ decode [.content (.entityRec ⟨"A", "t", []⟩)]
          = .ok ⟨[⟨"A", "t", []⟩], []⟩)
    ∧ (∀ e : Entity, countName [] e.name ≤ 1 →
        ∀ file₁ added₁, createEntities [] [e] = .ok (file₁, added₁) →
        ∀ file₂ added₂, createEntities file₁ [e] = .ok (file₂, added₂) →
        ∀ g₂, decode file₂ = .ok g₂ → countName g₂.entities e.name = 1) :=
  C6_createEntities_spec [] ⟨[], []⟩ [⟨"A", "t", []⟩] rfl

/-- C9 counterexample: a `createEntities` candidate whose own observation
list repeats a string is appended verbatim, and an `addObservations` entry
whose contents repeat a fresh string adds it twice — in both cases the
persisted entity's observation list has a duplicate. -/
theorem C9_counterexample :
    createEntities [] [⟨"A", "t", ["x", "x"]⟩]
        = .ok ([.content (.entityRec ⟨"A", "t", ["x", "x"]⟩)],
               [⟨"A", "t", ["x", "x"]⟩])
      ∧ addObservations [.content (.entityRec ⟨"A", "t", []⟩)]
          [⟨"A", ["n", "n"]⟩]
        = .ok ([.content (.entityRec ⟨"A", "t", ["n", "n"]⟩)],
               [⟨"A", ["n", "n"]⟩])
      ∧ ¬ ObsNodup ⟨[⟨"A", "t", ["x", "x"]⟩], []⟩ := by
  refine ⟨rfl, rfl, ?_⟩
  intro h
  have hA := h ⟨"A", "t", ["x", "x"]⟩ (by simp)
  simp at hA

/-- One `addObservations` step keeps every observation list duplicate-free,
provided the entry's contents are duplicate-free. -/
theorem applyObservation_obs_nodup (g : KnowledgeGraph)
    (o : ObservationEntry) (g' : KnowledgeGraph) (r : ObservationResult)
    (hg : ObsNodup g) (hc : o.contents.Nodup)
    (h : applyObservation g o = .ok (g', r)) : ObsNodup g' := by
  cases hf : g.entities.find? (fun e => e.name == o.entityName) with
  | none => simp [applyObservation, hf] at h
  | some entity =>
      simp [applyObservation, hf] at h
      intro e he
      rw [← h.1] at he
      rcases mem_replaceFirst he with rfl | hmem
      · have hent := hg entity (List.mem_of_find?_eq_some hf)
        simp only [addContents]
        refine List.Nodup.append hent (hc.filter _) ?_
        intro a ha hb
        obtain ⟨-, hnotin⟩ := List.mem_filter.mp hb
        simp only [decide_eq_true_eq] at hnotin
        rw [contains_eq_true_iff] at hnotin
        exact hnotin ha
      · exact hg e hmem

/-- Processing a batch of entries keeps every observation list
duplicate-free, provided each entry's contents are duplicate-free. -/
theorem applyObservations_obs_nodup (os : List ObservationEntry) :
    ∀ (g g' : KnowledgeGraph) (rs : List ObservationResult), ObsNodup g →
      (∀ o ∈ os, o.contents.Nodup) →
      applyObservations g os = .ok (g', rs) → ObsNodup g' := by
  induction os with
  | nil =>
      intro g g' rs hg _ h
      simp [applyObservations] at h
      rw [← h.1]
      exact hg
  | cons o os ih =>
      intro g g' rs hg hc h
      cases h₁ : applyObservation g o with
      | error err => simp [applyObservations, h₁] at h
      | ok p =>
          obtain ⟨g₁, r⟩ := p
          cases h₂ : applyObservations g₁ os with
          | error err => simp [applyObservations, h₁, h₂] at h
          | ok q =>
              obtain ⟨g₂, rs'⟩ := q
              simp [applyObservations, h₁, h₂] at h
              rw [← h.1]
              have hg₁ := applyObservation_obs_nodup g o g₁ r hg
                (hc o (List.mem_cons_self _ _)) h₁
              exact ih g₁ g₂ rs' hg₁
                (fun o' ho' => hc o' (List.mem_cons_of_mem _ ho')) h₂

/-- Lemma: `applyDeletion` keeps every observation list duplicate-free. -/
theorem applyDeletion_obs_nodup (g : KnowledgeGraph) (d : DeletionEntry)
    (hg : ObsNodup g) : ObsNodup (applyDeletion g d) := by
  cases hf : g.entities.find? (fun e => e.name == d.entityName) with
  | none => simpa [applyDeletion, hf] using hg
  | some entity =>
      intro e he
      simp only [applyDeletion, hf] at he
      rcases mem_replaceFirst he with rfl | hmem
      · exact (hg entity (List.mem_of_find?_eq_some hf)).filter _
      · exact hg e hmem

/-- Folding `applyDeletion` keeps every observation list duplicate-free. -/
theorem foldl_applyDeletion_obs_nodup (ds : List DeletionEntry)
    (g : KnowledgeGraph) (hg : ObsNodup g) :
    ObsNodup (ds.foldl applyDeletion g) := by
  induction ds generalizing g with
  | nil => exact hg
  | cons d ds ih => exact ih _ (applyDeletion_obs_nodup g d hg)

/-- C9 amended: after any mutation operation every entity's observation list
in the persisted graph is duplicate-free, provided the starting graph
satisfies this, every `createEntities` candidate's own observations list is
duplicate-free, and every `addObservations` entry's contents list is
duplicate-free — the source dedups incoming contents only against the
observations already on the entity, never within the incoming list or within
a candidate entity. -/
theorem C9_obs_nodup_preserved (file : List FileLine) (g : KnowledgeGraph)
    (hload : decode file = .ok g) (hg : ObsNodup g) :
    (∀ cands file' added, (∀ c ∈ cands, c.observations.Nodup) →
        createEntities file cands = .ok (file', added) →
        ∀ g', decode file' = .ok g' → ObsNodup g')
    ∧ (∀ obs file' res, (∀ o ∈ obs, o.contents.Nodup) →
        addObservations file obs = .ok (file', res) →
        ∀ g', decode file' = .ok g' → ObsNodup g')
    ∧ (∀ rels file' added, createRelations file rels = .ok (file', added) →
        ∀ g', decode file' = .ok g' → ObsNodup g')
    ∧ (∀ names file', deleteEntities file names = .ok file' →
        ∀ g', decode file' = .ok g' → ObsNodup g')
    ∧ (∀ dels file', deleteObservations file dels = .ok file' →
        ∀ g', decode file' = .ok g' → ObsNodup g')
    ∧ (∀ rels file', deleteRelations file rels = .ok file' →
        ∀ g', decode file' = .ok g' → ObsNodup g') := by
  refine ⟨?_, ?_, ?_, ?_, ?_, ?_⟩
  · intro cands file' added hcands h g' hg'
    rw [createEntities_eq file g cands hload] at h
    simp only [Except.ok.injEq, Prod.mk.injEq] at h
    rw [← h.1, decode_encode] at hg'
    injection hg' with hg'
    subst hg'
    intro e he
    rcases List.mem_append.mp he with hmem | hmem
    · exact hg e hmem
    · have hsl : (newEnts g cands).Sublist cands := List.filter_sublist _
      exact hcands e (hsl.mem hmem)
  · intro obs file' res hobs h g' hg'
    cases hap : applyObservations g obs with
    | error err => simp [addObservations, hload, hap] at h
    | ok p =>
        obtain ⟨g₁, rs⟩ := p
        simp [addObservations, hload, hap] at h
        rw [← h.1, decode_encode] at hg'
        injection hg' with hg'
        subst hg'
        exact applyObservations_obs_nodup obs g g₁ rs hg hobs hap
  · intro rels file' added h g' hg'
    simp [createRelations, hload] at h
    rw [← h.1, decode_encode] at hg'
    injection hg' with hg'
    subst hg'
    exact hg
  · intro names file' h g' hg'
    simp [deleteEntities, hload] at h
    rw [← h, decode_encode] at hg'
    injection hg' with hg'
    subst hg'
    intro e he
    exact hg e ((List.filter_sublist _).mem he)
  · intro dels file' h g' hg'
    simp [deleteObservations, hload] at h
    rw [← h, decode_encode] at hg'
    injection hg' with hg'
    subst hg'
    exact foldl_applyDeletion_obs_nodup dels g hg
  · intro rels file' h g' hg'
    simp [deleteRelations, hload] at h
    rw [← h, decode_encode] at hg'
    injection hg' with hg'
    subst hg'
    exact hg

/-- Witness for C9's amended statement: a duplicate-free candidate added to
the empty store keeps the invariant. -/
theorem C9_obs_nodup_preserved_witness :
    ObsNodup ⟨[⟨"A", "t", ["x", "y"]⟩], []⟩ :=
  (C9_obs_nodup_preserved [] ⟨[], []⟩ rfl (by intro e he; cases he)).1
    [⟨"A", "t", ["x", "y"]⟩]
    [.content (.entityRec ⟨"A", "t", ["x", "y"]⟩)]
    [⟨"A", "t", ["x", "y"]⟩]
    (by intro c hc; rw [List.mem_singleton] at hc; subst hc; simp) rfl
    ⟨[⟨"A", "t", ["x", "y"]⟩], []⟩ rfl

end KnowledgeGraphStore
